import Mathlib

/-!
# Verification of the Command-Centre backtesting core

Shallow embedding of the signal-scoring and forward-outcome measurement
pipeline (`backtesting/indicators.py`, `backtesting/signal_engine.py`,
`backtesting/backtester.py`).  Floating-point series values are modelled as
rationals; pandas NaN entries are modelled as `Option` (`none` = NaN).
The Bollinger-band computations, which involve a square root, are modelled
over the reals together with an extended value type that distinguishes
NaN from the two float infinities, so that guarded and unguarded divisions
can be told apart.
-/

namespace CommandCentre

/-- pandas `Series.clip(lo, hi)` on a finite value. -/
def clipQ (lo hi x : ℚ) : ℚ := max lo (min hi x)

/-- Round a rational to the nearest integer, ties to even
(the rounding used by Python's built-in `round`). -/
def roundHalfEven (x : ℚ) : ℤ :=
  let f := ⌊x⌋
  let r := x - (f : ℚ)
  if r < 1/2 then f
  else if 1/2 < r then f + 1
  else if f % 2 = 0 then f else f + 1

/-- Python `round(x, nd)` on a finite value. -/
def pyRound (nd : ℕ) (x : ℚ) : ℚ :=
  (roundHalfEven (x * 10 ^ nd) : ℚ) / 10 ^ nd

/-- `np.mean` over the values of a (nonempty) list. -/
def meanQ (l : List ℚ) : ℚ := l.sum / l.length

/-- pandas `Series.max()` of a nonempty series (0 on the empty list,
which the code never hits). -/
def listMax : List ℚ → ℚ
  | [] => 0
  | x :: xs => xs.foldl max x

/-- pandas `Series.min()` of a nonempty series. -/
def listMin : List ℚ → ℚ
  | [] => 0
  | x :: xs => xs.foldl min x

theorem roundHalfEven_nonneg {x : ℚ} (hx : 0 ≤ x) : 0 ≤ roundHalfEven x := by
  unfold roundHalfEven
  have hf : (0 : ℤ) ≤ ⌊x⌋ := Int.floor_nonneg.mpr hx
  dsimp only
  split
  · exact hf
  · split
    · omega
    · split
      · exact hf
      · omega

theorem pyRound_nonneg (nd : ℕ) {x : ℚ} (hx : 0 ≤ x) : 0 ≤ pyRound nd x := by
  unfold pyRound
  have h1 : (0 : ℚ) ≤ x * 10 ^ nd := by positivity
  have h2 := roundHalfEven_nonneg h1
  have h3 : (0 : ℚ) ≤ (roundHalfEven (x * 10 ^ nd) : ℚ) := by exact_mod_cast h2
  positivity

theorem init_le_foldl_max : ∀ (l : List ℚ) (a : ℚ), a ≤ l.foldl max a := by
  intro l
  induction l with
  | nil => intro a; simp
  | cons x xs ih =>
    intro a
    simp only [List.foldl_cons]
    exact le_trans (le_max_left a x) (ih (max a x))

theorem mem_le_foldl_max : ∀ (l : List ℚ) (a x : ℚ), x ∈ l → x ≤ l.foldl max a := by
  intro l
  induction l with
  | nil => intro a x hx; cases hx
  | cons y ys ih =>
    intro a x hx
    simp only [List.foldl_cons]
    rcases List.mem_cons.mp hx with hx | hx
    · subst hx
      exact le_trans (le_max_right a x) (init_le_foldl_max ys (max a x))
    · exact ih (max a y) x hx

theorem le_listMax (l : List ℚ) (x : ℚ) (hx : x ∈ l) : x ≤ listMax l := by
  match l with
  | [] => cases hx
  | y :: ys =>
    unfold listMax
    rcases List.mem_cons.mp hx with h | h
    · subst h; exact init_le_foldl_max ys x
    · exact mem_le_foldl_max ys y x h

theorem foldl_min_le_init : ∀ (l : List ℚ) (a : ℚ), l.foldl min a ≤ a := by
  intro l
  induction l with
  | nil => intro a; simp
  | cons x xs ih =>
    intro a
    simp only [List.foldl_cons]
    exact le_trans (ih (min a x)) (min_le_left a x)

theorem foldl_min_le_mem : ∀ (l : List ℚ) (a x : ℚ), x ∈ l → l.foldl min a ≤ x := by
  intro l
  induction l with
  | nil => intro a x hx; cases hx
  | cons y ys ih =>
    intro a x hx
    simp only [List.foldl_cons]
    rcases List.mem_cons.mp hx with hx | hx
    · subst hx
      exact le_trans (foldl_min_le_init ys (min a x)) (min_le_right a x)
    · exact ih (min a y) x hx

theorem listMin_le (l : List ℚ) (x : ℚ) (hx : x ∈ l) : listMin l ≤ x := by
  match l with
  | [] => cases hx
  | y :: ys =>
    unfold listMin
    rcases List.mem_cons.mp hx with h | h
    · subst h; exact foldl_min_le_init ys x
    · exact foldl_min_le_mem ys y x h

/-! ## Signal engine scoring (`signal_engine.py`, `SignalEngine.score`)

`score` is fully vectorized but treats every bar independently; we model one
bar's inputs as the list of `(weight, signal value)` pairs obtained from the
weight map and the signal table (`none` = NaN before the `fillna(0)`).
Pairs with weight 0 are skipped by the loop (`if w == 0: continue`). -/

/-- `signals_df[key].fillna(0)` at one bar. -/
def fillna0 (v : Option ℚ) : ℚ := v.getD 0

/-- `bull_score`: sum over weighted keys of `max(sig, 0) * w`. -/
def bullScore (row : List (ℚ × Option ℚ)) : ℚ :=
  (row.map (fun p => if p.1 = 0 then 0 else max (fillna0 p.2) 0 * p.1)).sum

/-- `bear_score`: sum over weighted keys of `max(-sig, 0) * w`. -/
def bearScore (row : List (ℚ × Option ℚ)) : ℚ :=
  (row.map (fun p => if p.1 = 0 then 0 else max (-fillna0 p.2) 0 * p.1)).sum

/-- `active_weight_sum`: each key contributes its weight when
`|sig| > 0.01` on this bar. -/
def activeWeight (row : List (ℚ × Option ℚ)) : ℚ :=
  (row.map (fun p =>
    if p.1 = 0 then 0
    else if |fillna0 p.2| > 1/100 then p.1 else 0)).sum

/-- `active_weight_sum.replace(0, 1)`. -/
def activeWeightDen (row : List (ℚ × Option ℚ)) : ℚ :=
  if activeWeight row = 0 then 1 else activeWeight row

/-- Raw confidence: `((bull + bear) / active_weight * 100).clip(0, 100)`. -/
def confidenceRaw (row : List (ℚ × Option ℚ)) : ℚ :=
  clipQ 0 100 ((bullScore row + bearScore row) / activeWeightDen row * 100)

/-- `directional_conf`: `(|bull - bear| / total * 100)` with the zero total
replaced by NaN (`replace(0, nan)`), then `fillna(0).clip(0, 100)`. -/
def directionalConf (row : List (ℚ × Option ℚ)) : ℚ :=
  clipQ 0 100
    (if bullScore row + bearScore row = 0 then 0
     else |bullScore row - bearScore row| / (bullScore row + bearScore row) * 100)

/-- Final blended confidence: `(raw * 0.6 + directional * 0.4).clip(0, 100)`. -/
def confidence (row : List (ℚ × Option ℚ)) : ℚ :=
  clipQ 0 100 (confidenceRaw row * (3/5) + directionalConf row * (2/5))

/-- `net_score = bull_score - bear_score`. -/
def netScore (row : List (ℚ × Option ℚ)) : ℚ := bullScore row - bearScore row

/-- `direction = np.where(net > 0, 1, np.where(net < 0, -1, 0))`. -/
def direction (row : List (ℚ × Option ℚ)) : ℤ :=
  if netScore row > 0 then 1 else if netScore row < 0 then -1 else 0

theorem clipQ_eq_self {lo hi x : ℚ} (h1 : lo ≤ x) (h2 : x ≤ hi) : clipQ lo hi x = x := by
  unfold clipQ
  rw [min_eq_right h2, max_eq_right h1]

theorem clipQ_le {lo hi x : ℚ} (h : lo ≤ hi) : clipQ lo hi x ≤ hi := by
  unfold clipQ
  exact max_le h (min_le_left _ _)

theorem le_clipQ {lo hi x : ℚ} : lo ≤ clipQ lo hi x := le_max_left _ _

theorem bullScore_nonneg {row : List (ℚ × Option ℚ)} (hw : ∀ p ∈ row, 0 ≤ p.1) :
    0 ≤ bullScore row := by
  apply List.sum_nonneg
  intro x hx
  rcases List.mem_map.mp hx with ⟨p, hp, rfl⟩
  by_cases h : p.1 = 0
  · simp [h]
  · simp only [if_neg h]
    exact mul_nonneg (le_max_right _ _) (hw p hp)

theorem bearScore_nonneg {row : List (ℚ × Option ℚ)} (hw : ∀ p ∈ row, 0 ≤ p.1) :
    0 ≤ bearScore row := by
  apply List.sum_nonneg
  intro x hx
  rcases List.mem_map.mp hx with ⟨p, hp, rfl⟩
  by_cases h : p.1 = 0
  · simp [h]
  · simp only [if_neg h]
    exact mul_nonneg (le_max_right _ _) (hw p hp)

theorem activeWeight_nonneg {row : List (ℚ × Option ℚ)} (hw : ∀ p ∈ row, 0 ≤ p.1) :
    0 ≤ activeWeight row := by
  apply List.sum_nonneg
  intro x hx
  rcases List.mem_map.mp hx with ⟨p, hp, rfl⟩
  by_cases h : p.1 = 0
  · simp [h]
  · simp only [if_neg h]
    split
    · exact hw p hp
    · exact le_refl 0

/-- C1. For every bar, `score()` computes confidence as
`0.6 * min((bull+bear)/active_weight*100, 100)
 + 0.4 * (|bull-bear|/(bull+bear)*100, or 0 when bull+bear = 0)`,
and direction is the sign of `bull_score - bear_score`, NEUTRAL (0) exactly
on ties.  Stated for bars whose active weight is nonzero (the code replaces a
zero active weight by 1 before dividing) and for non-negative weights, as the
Weight Map specifies. -/
theorem score_confidence_direction (row : List (ℚ × Option ℚ))
    (hw : ∀ p ∈ row, 0 ≤ p.1) (ha : activeWeight row ≠ 0) :
    confidence row =
      (3/5) * min ((bullScore row + bearScore row) / activeWeight row * 100) 100
      + (2/5) * (if bullScore row + bearScore row = 0 then 0
                 else |bullScore row - bearScore row| / (bullScore row + bearScore row) * 100)
    ∧ (0 < netScore row → direction row = 1)
    ∧ (netScore row < 0 → direction row = -1)
    ∧ (direction row = 0 ↔ bullScore row = bearScore row) := by
  have hb1 : 0 ≤ bullScore row := bullScore_nonneg hw
  have hb2 : 0 ≤ bearScore row := bearScore_nonneg hw
  have haw : 0 < activeWeight row := lt_of_le_of_ne (activeWeight_nonneg hw) (Ne.symm ha)
  have hden : activeWeightDen row = activeWeight row := by
    unfold activeWeightDen; rw [if_neg ha]
  have hsum : 0 ≤ bullScore row + bearScore row := add_nonneg hb1 hb2
  -- raw confidence reduces to a one-sided clip
  have hraw : confidenceRaw row =
      min ((bullScore row + bearScore row) / activeWeight row * 100) 100 := by
    unfold confidenceRaw clipQ
    rw [hden]
    have ht : 0 ≤ (bullScore row + bearScore row) / activeWeight row * 100 := by
      positivity
    rw [max_eq_right (le_min (by norm_num) ht), min_comm]
  -- directional conviction's clip is a no-op
  have hdc : directionalConf row =
      (if bullScore row + bearScore row = 0 then 0
       else |bullScore row - bearScore row| / (bullScore row + bearScore row) * 100) := by
    unfold directionalConf
    by_cases h0 : bullScore row + bearScore row = 0
    · rw [if_pos h0]
      unfold clipQ; norm_num
    · rw [if_neg h0]
      have hpos : 0 < bullScore row + bearScore row := lt_of_le_of_ne hsum (Ne.symm h0)
      have habs : |bullScore row - bearScore row| ≤ bullScore row + bearScore row := by
        rw [abs_sub_le_iff]
        constructor <;> linarith
      apply clipQ_eq_self
      · positivity
      · rw [div_mul_eq_mul_div, div_le_iff hpos]
        nlinarith
  refine ⟨?_, ?_, ?_, ?_⟩
  · unfold confidence
    rw [hraw, hdc]
    set r := min ((bullScore row + bearScore row) / activeWeight row * 100) 100 with hr
    set d := (if bullScore row + bearScore row = 0 then 0
              else |bullScore row - bearScore row| / (bullScore row + bearScore row) * 100) with hd
    have hr0 : 0 ≤ r := by
      rw [hr]; apply le_min (by positivity) (by norm_num)
    have hr1 : r ≤ 100 := min_le_right _ _
    have hd0 : 0 ≤ d := by
      rw [hd]
      split
      · norm_num
      · rename_i h0
        have hpos : 0 < bullScore row + bearScore row := lt_of_le_of_ne hsum (Ne.symm h0)
        positivity
    have hd1 : d ≤ 100 := by
      rw [hd]
      split
      · norm_num
      · rename_i h0
        have hpos : 0 < bullScore row + bearScore row := lt_of_le_of_ne hsum (Ne.symm h0)
        have habs : |bullScore row - bearScore row| ≤ bullScore row + bearScore row := by
          rw [abs_sub_le_iff]
          constructor <;> linarith
        rw [div_mul_eq_mul_div, div_le_iff hpos]
        nlinarith
    rw [clipQ_eq_self (by linarith) (by linarith)]
    ring
  · intro h
    unfold direction
    rw [if_pos h]
  · intro h
    unfold direction
    rw [if_neg (by linarith), if_pos h]
  · unfold direction netScore
    constructor
    · intro h
      by_cases h1 : bullScore row - bearScore row > 0
      · rw [if_pos h1] at h; cases h
      · by_cases h2 : bullScore row - bearScore row < 0
        · rw [if_neg h1, if_pos h2] at h; cases h
        · linarith
    · intro h
      rw [if_neg (by simp [h]), if_neg (by simp [h])]

/-- A concrete scored bar: two signals, weights 5 and 3, values 1 and -1/2. -/
def sampleRow : List (ℚ × Option ℚ) := [(5, some 1), (3, some (-1/2))]

theorem sampleRow_weights_nonneg : ∀ p ∈ sampleRow, 0 ≤ p.1 := by
  intro p hp
  rcases List.mem_cons.mp hp with h | h
  · subst h; norm_num
  · rcases List.mem_cons.mp h with h | h
    · subst h; norm_num
    · cases h

theorem sampleRow_activeWeight : activeWeight sampleRow = 8 := by
  simp only [activeWeight, sampleRow, fillna0, List.map_cons, List.map_nil,
    List.sum_cons, List.sum_nil, Option.getD_some]
  norm_num
  rw [show |(1:ℚ)/2| = 1/2 from abs_of_nonneg (by norm_num)]
  norm_num

/-- Witness for C1 at the concrete bar `sampleRow`. -/
theorem score_confidence_direction_witness :
    confidence sampleRow =
      (3/5) * min ((bullScore sampleRow + bearScore sampleRow)
        / activeWeight sampleRow * 100) 100
      + (2/5) * (if bullScore sampleRow + bearScore sampleRow = 0 then 0
          else |bullScore sampleRow - bearScore sampleRow|
            / (bullScore sampleRow + bearScore sampleRow) * 100)
    ∧ (0 < netScore sampleRow → direction sampleRow = 1)
    ∧ (netScore sampleRow < 0 → direction sampleRow = -1)
    ∧ (direction sampleRow = 0 ↔ bullScore sampleRow = bearScore sampleRow) :=
  score_confidence_direction sampleRow sampleRow_weights_nonneg
    (by rw [sampleRow_activeWeight]; norm_num)

/-! ## Indicator library over ℚ (`indicators.py`)

A pandas float series over the bar index is modelled as `List (Option ℚ)`
(`none` = NaN); input price/volume series are finite, hence `List ℚ`. -/

/-- The window of the last `p` values ending at index `i`
(what pandas `rolling(p)` aggregates at `i` once `i + 1 ≥ p`). -/
def rollingWindow (p : ℕ) (l : List ℚ) (i : ℕ) : List ℚ :=
  (l.take (i + 1)).drop (i + 1 - p)

/-- `series.rolling(p).mean()`: NaN while fewer than `p` observations
exist, the window mean afterwards. -/
def rollingMean (p : ℕ) (l : List ℚ) : List (Option ℚ) :=
  (List.range l.length).map (fun i =>
    if i + 1 < p then none else some ((rollingWindow p l i).sum / p))

/-- `sma(series, period) = series.rolling(period).mean()`. -/
def sma (l : List ℚ) (p : ℕ) : List (Option ℚ) := rollingMean p l

/-- Tail of the `ewm(span, adjust=False)` recursion:
`y_t = (1 - alpha) * y_(t-1) + alpha * x_t`. -/
def emaGo (a : ℚ) : ℚ → List ℚ → List ℚ
  | _, [] => []
  | prev, x :: xs => ((1 - a) * prev + a * x) :: emaGo a ((1 - a) * prev + a * x) xs

/-- The value recursion of `series.ewm(span=period, adjust=False).mean()`:
seeded with the first observation, `alpha = 2 / (period + 1)`. -/
def emaF (l : List ℚ) (p : ℕ) : List ℚ :=
  match l with
  | [] => []
  | x :: xs => x :: emaGo (2 / ((p : ℚ) + 1)) x xs

/-- `ema(series, period) = series.ewm(span=period, adjust=False).mean()`:
on an all-finite input series every output entry is defined. -/
def ema (l : List ℚ) (p : ℕ) : List (Option ℚ) := (emaF l p).map some

theorem length_emaGo (a : ℚ) : ∀ (prev : ℚ) (l : List ℚ),
    (emaGo a prev l).length = l.length := by
  intro prev l
  induction l generalizing prev with
  | nil => rfl
  | cons x xs ih => simp [emaGo, ih]

theorem length_emaF (l : List ℚ) (p : ℕ) : (emaF l p).length = l.length := by
  cases l with
  | nil => rfl
  | cons x xs => simp [emaF, length_emaGo]

theorem length_ema (l : List ℚ) (p : ℕ) : (ema l p).length = l.length := by
  simp [ema, length_emaF]

theorem length_rollingMean (p : ℕ) (l : List ℚ) :
    (rollingMean p l).length = l.length := by
  simp [rollingMean]

theorem rollingMean_getD (p : ℕ) (l : List ℚ) (i : ℕ) (hi : i < l.length) :
    (rollingMean p l).getD i none =
      (if i + 1 < p then none else some ((rollingWindow p l i).sum / p)) := by
  unfold rollingMean
  rw [List.getD_eq_getElem?_getD, List.getElem?_map, List.getElem?_range hi]
  rfl

/-- `rsi`: `delta = close.diff()`, gains kept where `delta > 0` (the leading
NaN delta fails the comparison and becomes `0.0`). -/
def gainRaw (c : List ℚ) : List ℚ :=
  (List.range c.length).map (fun i =>
    if i = 0 then 0
    else if c.getD (i - 1) 0 < c.getD i 0 then c.getD i 0 - c.getD (i - 1) 0 else 0)

/-- `rsi`: `-delta.where(delta < 0, 0.0)`, losses as positive magnitudes. -/
def lossRaw (c : List ℚ) : List ℚ :=
  (List.range c.length).map (fun i =>
    if i = 0 then 0
    else if c.getD i 0 < c.getD (i - 1) 0 then c.getD (i - 1) 0 - c.getD i 0 else 0)

/-- `gain = delta.where(delta > 0, 0.0).rolling(period).mean()`. -/
def gainSeries (c : List ℚ) (p : ℕ) : List (Option ℚ) := rollingMean p (gainRaw c)

/-- `loss = (-delta.where(delta < 0, 0.0)).rolling(period).mean()`. -/
def lossSeries (c : List ℚ) (p : ℕ) : List (Option ℚ) := rollingMean p (lossRaw c)

/-- `rs = gain / loss.replace(0, np.nan)`: NaN whenever either side is NaN
or the average loss is exactly zero. -/
def rsSeries (c : List ℚ) (p : ℕ) : List (Option ℚ) :=
  (List.range c.length).map (fun i =>
    match (gainSeries c p).getD i none, (lossSeries c p).getD i none with
    | some g, some lv => if lv = 0 then none else some (g / lv)
    | _, _ => none)

/-- `rsi = 100 - (100 / (1 + rs))`; NaN propagates from `rs`. -/
def rsi (c : List ℚ) (p : ℕ) : List (Option ℚ) :=
  (rsSeries c p).map (Option.map (fun r => 100 - 100 / (1 + r)))

theorem length_gainRaw (c : List ℚ) : (gainRaw c).length = c.length := by
  simp [gainRaw]

theorem length_lossRaw (c : List ℚ) : (lossRaw c).length = c.length := by
  simp [lossRaw]

theorem length_lossSeries (c : List ℚ) (p : ℕ) :
    (lossSeries c p).length = c.length := by
  simp [lossSeries, length_rollingMean, length_lossRaw]

theorem rsSeries_getD (c : List ℚ) (p : ℕ) (i : ℕ) (hi : i < c.length) :
    (rsSeries c p).getD i none =
      (match (gainSeries c p).getD i none, (lossSeries c p).getD i none with
       | some g, some lv => if lv = 0 then none else some (g / lv)
       | _, _ => none) := by
  unfold rsSeries
  rw [List.getD_eq_getElem?_getD, List.getElem?_map, List.getElem?_range hi]
  rfl

theorem rsi_getD (c : List ℚ) (p : ℕ) (i : ℕ) (hi : i < c.length) :
    (rsi c p).getD i none =
      Option.map (fun r => 100 - 100 / (1 + r)) ((rsSeries c p).getD i none) := by
  unfold rsi
  have hlen : i < (rsSeries c p).length := by simpa [rsSeries] using hi
  rw [List.getD_eq_getElem?_getD, List.getElem?_map,
    List.getElem?_eq_getElem hlen, List.getD_eq_getElem?_getD,
    List.getElem?_eq_getElem hlen]
  rfl

/-- C3 counterexample: `ema([1,2,3], 3)` is defined (equal to the first
close, 1) already at index 0, although the claim requires the first
`period - 1 = 2` entries to be NaN. -/
theorem ema_warmup_counterexample :
    (ema [1, 2, 3] 3).get? 0 = some (some 1)
    ∧ (ema [1, 2, 3] 3).get? 0 ≠ some none := by
  constructor
  · rfl
  · intro h
    rw [show (ema [1, 2, 3] 3).get? 0 = some (some 1) from rfl] at h
    exact Option.noConfusion (Option.some.inj h)

/-- C3 (amended). For every price series and period `p ≥ 1`, the simple
moving average leaves exactly the first `p - 1` entries NaN and is defined
from index `p - 1` on, while the exponential moving average
(`ewm(span, adjust=False)`) is defined at every index of the series. -/
theorem sma_warmup_ema_defined (l : List ℚ) (p : ℕ) (hp : 1 ≤ p) :
    (sma l p).length = l.length ∧ (ema l p).length = l.length
    ∧ (∀ i, i < l.length → ((sma l p).getD i none = none ↔ i + 1 < p))
    ∧ (∀ i, i < l.length → (ema l p).getD i none ≠ none) := by
  refine ⟨length_rollingMean p l, length_ema l p, ?_, ?_⟩
  · intro i hi
    rw [sma, rollingMean_getD p l i hi]
    split
    · simp_all
    · simp_all
  · intro i hi
    have hlen : i < (emaF l p).length := by rw [length_emaF]; exact hi
    rw [ema, List.getD_eq_getElem?_getD, List.getElem?_map,
      List.getElem?_eq_getElem hlen]
    simp

/-- Witness for C3's amended statement at `close = [1,2,3]`, `period = 3`. -/
theorem sma_warmup_ema_defined_witness :
    (sma [1, 2, 3] 3).length = ([1, 2, 3] : List ℚ).length
    ∧ (ema [1, 2, 3] 3).length = ([1, 2, 3] : List ℚ).length
    ∧ (∀ i, i < ([1, 2, 3] : List ℚ).length →
        ((sma [1, 2, 3] 3).getD i none = none ↔ i + 1 < 3))
    ∧ (∀ i, i < ([1, 2, 3] : List ℚ).length →
        (ema [1, 2, 3] 3).getD i none ≠ none) :=
  sma_warmup_ema_defined [1, 2, 3] 3 (by norm_num)

theorem lossSeries_example : (lossSeries [1, 2, 3] 2).getD 1 none = some 0 := by
  have hraw : lossRaw [1, 2, 3] = [0, 0, 0] := by
    simp only [lossRaw, List.length_cons, List.length_nil]
    simp [List.range_succ, List.getD]
    norm_num
  rw [lossSeries, hraw]
  rw [rollingMean_getD 2 [0, 0, 0] 1 (by norm_num)]
  norm_num [rollingWindow]

theorem gainSeries_example : (gainSeries [1, 2, 3] 2).getD 1 none = some (1/2) := by
  have hraw : gainRaw [1, 2, 3] = [0, 1, 1] := by
    simp only [gainRaw, List.length_cons, List.length_nil]
    simp [List.range_succ, List.getD]
    norm_num
  rw [gainSeries, hraw]
  rw [rollingMean_getD 2 [0, 1, 1] 1 (by norm_num)]
  norm_num [rollingWindow]

/-- C4 counterexample: on `close = [1,2,3]` with `period = 2`, at index 1 the
rolling average loss is exactly 0 and the rolling average gain is defined
(1/2), yet the RSI value is NaN — not 50: the code replaces the zero
denominator by NaN and lets it propagate. -/
theorem rsi_zero_loss_counterexample :
    (lossSeries [1, 2, 3] 2).getD 1 none = some 0
    ∧ (gainSeries [1, 2, 3] 2).getD 1 none = some (1/2)
    ∧ (rsi [1, 2, 3] 2).getD 1 none = none
    ∧ (rsi [1, 2, 3] 2).getD 1 none ≠ some 50 := by
  have hnan : (rsi [1, 2, 3] 2).getD 1 none = none := by
    rw [rsi_getD [1, 2, 3] 2 1 (by norm_num),
      rsSeries_getD [1, 2, 3] 2 1 (by norm_num),
      lossSeries_example, gainSeries_example]
    simp
  exact ⟨lossSeries_example, gainSeries_example, hnan, by rw [hnan]; simp⟩

theorem rsi_loss_zero_aux (c : List ℚ) (p : ℕ) (i : ℕ)
    (h : (lossSeries c p).getD i none = some 0) :
    (rsi c p).getD i none = none := by
  have hi : i < c.length := by
    by_contra hge
    push_neg at hge
    rw [List.getD_eq_default] at h
    · exact Option.noConfusion h
    · rw [length_lossSeries]; exact hge
  rw [rsi_getD c p i hi, rsSeries_getD c p i hi, h]
  cases hg : (gainSeries c p).getD i none with
  | none => simp
  | some g => simp

/-- C4 (amended). Whenever the rolling average loss is exactly zero at a
bar, the RSI value there is NaN (the guard `loss.replace(0, np.nan)` turns
the zero denominator into NaN, which propagates through the formula); no
exception and no infinity, but also not the sentinel value 50. -/
theorem rsi_zero_loss_nan (c : List ℚ) (p : ℕ) (i : ℕ)
    (h : (lossSeries c p).getD i none = some 0) :
    (rsi c p).getD i none = none :=
  rsi_loss_zero_aux c p i h

/-- Witness for C4's amended statement at `close = [1,2,3]`, `period = 2`,
bar 1. -/
theorem rsi_zero_loss_nan_witness : (rsi [1, 2, 3] 2).getD 1 none = none :=
  rsi_zero_loss_nan [1, 2, 3] 2 1 lossSeries_example

/-! ## Outcome validator (`backtester.py`, `PredictionValidator`)

Bar timestamps are modelled as seconds since midnight (wall-clock time of
day, which is all `_filter_market_hours` and `_classify_session` inspect).
A scored bar bundles the close price with the score columns for that bar. -/

/-- Trading-session labels of `_classify_session`. -/
inductive Session where
  | OPEN_RUSH
  | POWER_OPEN
  | MIDDAY
  | POWER_HOUR
  | AFTER_HOURS
deriving DecidableEq, Repr

/-- `market_open_hour/min` of `BACKTEST_CONFIG`: 9:30 AM, in seconds. -/
def marketOpenSec : ℕ := 9 * 3600 + 30 * 60

/-- `market_close_hour` of `BACKTEST_CONFIG`: 4:00 PM, in seconds. -/
def marketCloseSec : ℕ := 16 * 3600

/-- `_classify_session`: cut points 9:21 / 10:01 / 15:01 / 16:16. -/
def classifySession (t : ℕ) : Session :=
  if t < 9 * 3600 + 21 * 60 then .OPEN_RUSH
  else if t < 10 * 3600 + 60 then .POWER_OPEN
  else if t < 15 * 3600 + 60 then .MIDDAY
  else if t < 16 * 3600 + 16 * 60 then .POWER_HOUR
  else .AFTER_HOURS

/-- One bar of the scored series: timestamp, close, and the score columns. -/
structure BarScore where
  time : ℕ
  close : ℚ
  confidence : ℚ
  direction : ℤ
  bullScore : ℚ
  bearScore : ℚ
deriving DecidableEq, Repr

/-- `_filter_market_hours`: keep bars with `market_open <= t < market_close`. -/
def filterMarketHours (rows : List BarScore) : List BarScore :=
  rows.filter (fun r => decide (marketOpenSec ≤ r.time ∧ r.time < marketCloseSec))

/-- `max(horizons)` (the config horizons are nonempty lists of naturals). -/
def maxHorizon (hs : List ℕ) : ℕ := hs.foldl max 0

/-- `close.iloc[i]` on the scored series. -/
def closeAt (rows : List BarScore) (i : ℕ) : ℚ :=
  ((rows.get? i).map (·.close)).getD 0

/-- One Prediction record of `_measure_accuracy`. -/
structure Prediction where
  pos : ℕ
  time : ℕ
  entryPrice : ℚ
  direction : ℤ
  confidence : ℚ
  bullScore : ℚ
  bearScore : ℚ
  /-- per-horizon `(change, correct, dir_move)` fields -/
  outcomes : List (ℚ × Bool × ℚ)
  mfe : ℚ
  mae : ℚ
  session : Option Session
deriving DecidableEq, Repr

/-- Per-horizon outcome fields: rounded realized change, correctness
against the predicted direction, rounded direction-normalized move. -/
def mkOutcome (entry futureClose : ℚ) (dir : ℤ) : ℚ × Bool × ℚ :=
  let change := (futureClose - entry) / entry * 100
  if dir = 1 then (pyRound 4 change, decide (0 < change), pyRound 4 change)
  else (pyRound 4 change, decide (change < 0), pyRound 4 (-change))

/-- `close.iloc[pos : pos + max_horizon + 1]` — the excursion window. -/
def futureWindow (rows : List BarScore) (pos maxH : ℕ) : List ℚ :=
  ((rows.drop pos).take (maxH + 1)).map (·.close)

/-- The Prediction record built for a qualifying bar at position `pos`. -/
def mkPrediction (rows : List BarScore) (horizons : List ℕ) (isDay : Bool)
    (pos : ℕ) (r : BarScore) : Prediction :=
  let maxH := maxHorizon horizons
  let entry := r.close
  let w := futureWindow rows pos maxH
  { pos := pos
    time := r.time
    entryPrice := entry
    direction := r.direction
    confidence := r.confidence
    bullScore := r.bullScore
    bearScore := r.bearScore
    outcomes := horizons.map (fun h => mkOutcome entry (closeAt rows (pos + h)) r.direction)
    mfe := pyRound 4 (if r.direction = 1 then (listMax w - entry) / entry * 100
                      else (entry - listMin w) / entry * 100)
    mae := pyRound 4 (if r.direction = 1 then (listMin w - entry) / entry * 100
                      else (entry - listMax w) / entry * 100)
    session := if isDay then some (classifySession r.time) else none }

/-- `_measure_accuracy`: iterate the bars whose confidence clears the
threshold, skip those without `max(horizons)` future bars, skip NEUTRAL
direction, and emit one Prediction record for each survivor. -/
def measureAccuracy (rows : List BarScore) (threshold : ℚ) (horizons : List ℕ)
    (isDay : Bool) : List Prediction :=
  (List.range rows.length).filterMap (fun pos =>
    (rows.get? pos).bind (fun r =>
      if threshold ≤ r.confidence then
        if pos + maxHorizon horizons < rows.length then
          if r.direction ≠ 0 then some (mkPrediction rows horizons isDay pos r)
          else none
        else none
      else none))

theorem mem_measureAccuracy_iff (rows : List BarScore) (th : ℚ) (hs : List ℕ)
    (d : Bool) (p : Prediction) :
    p ∈ measureAccuracy rows th hs d ↔
      ∃ pos r, rows.get? pos = some r ∧ th ≤ r.confidence
        ∧ pos + maxHorizon hs < rows.length ∧ r.direction ≠ 0
        ∧ p = mkPrediction rows hs d pos r := by
  unfold measureAccuracy
  rw [List.mem_filterMap]
  constructor
  · rintro ⟨pos, hpos, hf⟩
    cases hget : rows.get? pos with
    | none => rw [hget, Option.none_bind] at hf; exact Option.noConfusion hf
    | some r =>
      rw [hget, Option.some_bind] at hf
      split_ifs at hf with h1 h2 h3
      · exact ⟨pos, r, hget, h1, h2, h3, (Option.some.inj hf).symm⟩
  · rintro ⟨pos, r, hget, h1, h2, h3, rfl⟩
    refine ⟨pos, List.mem_range.mpr (lt_of_le_of_lt (Nat.le_add_right pos _) h2), ?_⟩
    rw [hget, Option.some_bind, if_pos h1, if_pos h2, if_pos h3]

/-- C2. A bar of the scored series yields a Prediction record iff its
confidence is at least the threshold, its direction is not NEUTRAL, and at
least `max(horizons)` future bars follow it in the series; bars failing any
condition produce nothing. -/
theorem prediction_gating (rows : List BarScore) (th : ℚ) (hs : List ℕ)
    (d : Bool) (pos : ℕ) (hhs : hs ≠ []) :
    (∃ p ∈ measureAccuracy rows th hs d, p.pos = pos) ↔
      ∃ r, rows.get? pos = some r ∧ th ≤ r.confidence ∧ r.direction ≠ 0
        ∧ maxHorizon hs ≤ rows.length - pos - 1 := by
  clear hhs
  constructor
  · rintro ⟨p, hp, hpos⟩
    rcases (mem_measureAccuracy_iff rows th hs d p).mp hp with
      ⟨pos', r, hget, h1, h2, h3, rfl⟩
    have hpp : pos' = pos := hpos
    subst hpp
    have hlt : pos' < rows.length := by
      rcases List.get?_eq_some.mp hget with ⟨hl, _⟩
      exact hl
    exact ⟨r, hget, h1, h3, by omega⟩
  · rintro ⟨r, hget, h1, h3, hh⟩
    have hlt : pos < rows.length := by
      rcases List.get?_eq_some.mp hget with ⟨hl, _⟩
      exact hl
    have h2 : pos + maxHorizon hs < rows.length := by omega
    exact ⟨mkPrediction rows hs d pos r,
      (mem_measureAccuracy_iff rows th hs d _).mpr ⟨pos, r, hget, h1, h2, h3, rfl⟩,
      rfl⟩

/-- Concrete scored bars for the witnesses: a qualifying bar at 9:30 AM and
a non-qualifying neutral bar after it. -/
def bar0 : BarScore := ⟨34200, 1, 80, 1, 5, 0⟩

def bar1 : BarScore := ⟨34500, 2, 0, 0, 0, 0⟩

def sampleRows : List BarScore := [bar0, bar1]

/-- Witness for C2 at `sampleRows`, bar 0, threshold 65, horizons `[1]`. -/
theorem prediction_gating_witness :
    (∃ p ∈ measureAccuracy sampleRows 65 [1] false, p.pos = 0) ↔
      ∃ r, sampleRows.get? 0 = some r ∧ 65 ≤ r.confidence ∧ r.direction ≠ 0
        ∧ maxHorizon [1] ≤ sampleRows.length - 0 - 1 :=
  prediction_gating sampleRows 65 [1] false 0 (by simp)

/-- C5. Every Prediction record's maximum favorable excursion is
non-negative, in either direction: the excursion window
`close[pos : pos + max_horizon + 1]` starts at the entry bar, so the entry
price itself is a candidate extreme.  Hypothesis: close prices are positive
(the percentage is computed relative to the entry price). -/
theorem mfe_nonneg (rows : List BarScore) (th : ℚ) (hs : List ℕ) (d : Bool)
    (p : Prediction) (hc : ∀ r ∈ rows, 0 < r.close)
    (hp : p ∈ measureAccuracy rows th hs d) : 0 ≤ p.mfe := by
  rcases (mem_measureAccuracy_iff rows th hs d p).mp hp with
    ⟨pos, r, hget, _, _, _, rfl⟩
  have hr : r ∈ rows := List.get?_mem hget
  have he : 0 < r.close := hc r hr
  have hmem : r.close ∈ futureWindow rows pos (maxHorizon hs) := by
    have h0 : (futureWindow rows pos (maxHorizon hs)).get? 0 = some r.close := by
      unfold futureWindow
      rw [List.get?_map, List.get?_take (Nat.succ_pos _), List.get?_drop,
        Nat.add_zero, hget]
      rfl
    exact List.get?_mem h0
  show 0 ≤ (mkPrediction rows hs d pos r).mfe
  unfold mkPrediction
  dsimp only
  apply pyRound_nonneg
  split
  · have hle : r.close ≤ listMax (futureWindow rows pos (maxHorizon hs)) :=
      le_listMax _ _ hmem
    exact mul_nonneg (div_nonneg (by linarith) he.le) (by norm_num)
  · have hle : listMin (futureWindow rows pos (maxHorizon hs)) ≤ r.close :=
      listMin_le _ _ hmem
    exact mul_nonneg (div_nonneg (by linarith) he.le) (by norm_num)

theorem sampleRows_closes_pos : ∀ r ∈ sampleRows, 0 < r.close := by
  intro r hr
  rcases List.mem_cons.mp hr with h | h
  · subst h; norm_num [bar0]
  · rcases List.mem_cons.mp h with h | h
    · subst h; norm_num [bar1]
    · cases h

theorem sample_prediction_mem :
    mkPrediction sampleRows [1] false 0 bar0 ∈ measureAccuracy sampleRows 65 [1] false :=
  (mem_measureAccuracy_iff sampleRows 65 [1] false _).mpr
    ⟨0, bar0, rfl, by norm_num [bar0], by decide, by decide, rfl⟩

/-- Witness for C5 at the concrete prediction emitted from `sampleRows`. -/
theorem mfe_nonneg_witness : 0 ≤ (mkPrediction sampleRows [1] false 0 bar0).mfe :=
  mfe_nonneg sampleRows 65 [1] false _ sampleRows_closes_pos sample_prediction_mem

/-- C10. Every Prediction produced in day-trade mode from the
market-hours-filtered series carries session POWER_OPEN, MIDDAY or
POWER_HOUR: bars at or after 9:30 are never OPEN_RUSH and bars strictly
before 16:00 are never AFTER_HOURS. -/
theorem day_session_classification (rows : List BarScore) (th : ℚ) (hs : List ℕ)
    (p : Prediction)
    (hp : p ∈ measureAccuracy (filterMarketHours rows) th hs true) :
    p.session = some Session.POWER_OPEN ∨ p.session = some Session.MIDDAY
      ∨ p.session = some Session.POWER_HOUR := by
  rcases (mem_measureAccuracy_iff _ th hs true p).mp hp with
    ⟨pos, r, hget, _, _, _, rfl⟩
  have hr : r ∈ filterMarketHours rows := List.get?_mem hget
  have hcond : marketOpenSec ≤ r.time ∧ r.time < marketCloseSec := by
    have hmf := List.mem_filter.mp hr
    simpa using hmf.2
  unfold marketOpenSec marketCloseSec at hcond
  obtain ⟨hlo, hhi⟩ := hcond
  have hsess : (mkPrediction (filterMarketHours rows) hs true pos r).session =
      some (classifySession r.time) := rfl
  rw [hsess]
  unfold classifySession
  rw [if_neg (by omega : ¬ (r.time < 9 * 3600 + 21 * 60))]
  by_cases h2 : r.time < 10 * 3600 + 60
  · rw [if_pos h2]; left; rfl
  · rw [if_neg h2]
    by_cases h3 : r.time < 15 * 3600 + 60
    · rw [if_pos h3]; right; left; rfl
    · rw [if_neg h3, if_pos (by omega : r.time < 16 * 3600 + 16 * 60)]
      right; right; rfl

theorem filterMarketHours_sampleRows : filterMarketHours sampleRows = sampleRows := by
  simp [filterMarketHours, sampleRows, bar0, bar1, marketOpenSec, marketCloseSec,
    List.filter]

/-- Witness for C10 at the concrete day-trade prediction from `sampleRows`. -/
theorem day_session_classification_witness :
    (mkPrediction (filterMarketHours sampleRows) [1] true 0 bar0).session =
        some Session.POWER_OPEN
      ∨ (mkPrediction (filterMarketHours sampleRows) [1] true 0 bar0).session =
        some Session.MIDDAY
      ∨ (mkPrediction (filterMarketHours sampleRows) [1] true 0 bar0).session =
        some Session.POWER_HOUR :=
  day_session_classification sampleRows 65 [1] _
    ((mem_measureAccuracy_iff _ 65 [1] true _).mpr
      ⟨0, bar0, by rw [filterMarketHours_sampleRows]; rfl,
        by norm_num [bar0],
        by rw [filterMarketHours_sampleRows]; decide,
        by decide, rfl⟩)

/-! ## Confidence buckets (`_compile_results`)

`for i, low in enumerate(bins): high = bins[i+1] if i+1 < len(bins) else 100;
 mask = (conf >= low) & (conf < high)`. -/

/-- Lower boundary of bucket `i`. -/
def bucketLow (bins : List ℚ) (i : ℕ) : ℚ := bins.getD i 0

/-- Upper boundary of bucket `i`: the next cut point, or 100 for the last
bucket. -/
def bucketHigh (bins : List ℚ) (i : ℕ) : ℚ :=
  if i + 1 < bins.length then bins.getD (i + 1) 0 else 100

/-- The bin mask of `_compile_results` at one prediction:
`(confidence >= low) & (confidence < high)`. -/
def inBucket (bins : List ℚ) (i : ℕ) (c : ℚ) : Prop :=
  bucketLow bins i ≤ c ∧ c < bucketHigh bins i

theorem bins_getD_lt_getD {bins : List ℚ} (hsort : bins.Sorted (· < ·))
    {i j : ℕ} (hij : i < j) (hj : j < bins.length) :
    bins.getD i 0 < bins.getD j 0 := by
  have hi : i < bins.length := lt_trans hij hj
  rw [List.getD_eq_getElem?_getD, List.getElem?_eq_getElem hi,
    List.getD_eq_getElem?_getD, List.getElem?_eq_getElem hj]
  exact List.pairwise_iff_get.mp hsort ⟨i, hi⟩ ⟨j, hj⟩ hij

theorem bins_getD_le_getD {bins : List ℚ} (hsort : bins.Sorted (· < ·))
    {i j : ℕ} (hij : i ≤ j) (hj : j < bins.length) :
    bins.getD i 0 ≤ bins.getD j 0 := by
  rcases Nat.lt_or_ge i j with h | h
  · exact (bins_getD_lt_getD hsort h hj).le
  · have : i = j := le_antisymm hij h
    subst this
    exact le_refl _

/-- Two distinct buckets cannot both contain `c`. -/
theorem inBucket_disjoint {bins : List ℚ} (hsort : bins.Sorted (· < ·))
    {i j : ℕ} (hij : i < j) (hj : j < bins.length) {c : ℚ}
    (h1 : inBucket bins i c) (h2 : inBucket bins j c) : False := by
  obtain ⟨hlo1, hhi1⟩ := h1
  obtain ⟨hlo2, _⟩ := h2
  unfold bucketHigh at hhi1
  rw [if_pos (by omega : i + 1 < bins.length)] at hhi1
  have hle : bins.getD (i + 1) 0 ≤ bins.getD j 0 :=
    bins_getD_le_getD hsort (by omega) hj
  unfold bucketLow at hlo2
  linarith

/-- C6. With strictly ascending cut points below 100, the confidence
buckets of the per-ticker report are half-open `[low, high)` intervals: a
confidence exactly at an interior boundary lands in the bucket starting
there and not the one below, and every confidence in `[first boundary, 100)`
lies in exactly one bucket (the last one reaching up to 100). -/
theorem confidence_buckets (bins : List ℚ) (hsort : bins.Sorted (· < ·))
    (hlt : ∀ b ∈ bins, b < 100) (hne : bins ≠ []) :
    (∀ j, j + 1 < bins.length →
      inBucket bins (j + 1) (bins.getD (j + 1) 0)
        ∧ ¬ inBucket bins j (bins.getD (j + 1) 0))
    ∧ (∀ c : ℚ, bins.getD 0 0 ≤ c → c < 100 →
        ∃! i, i < bins.length ∧ inBucket bins i c) := by
  have hlen : 0 < bins.length := List.length_pos.mpr hne
  constructor
  · intro j hj
    refine ⟨⟨le_refl _, ?_⟩, fun h => ?_⟩
    · unfold bucketHigh
      split
      · exact bins_getD_lt_getD hsort (by omega) (by assumption)
      · refine hlt _ ?_
        rw [List.getD_eq_getElem?_getD, List.getElem?_eq_getElem hj]
        exact List.getElem_mem hj
    · obtain ⟨_, hhi⟩ := h
      unfold bucketHigh at hhi
      rw [if_pos hj] at hhi
      exact lt_irrefl _ hhi
  · intro c hc0 hc100
    set P : ℕ → Prop := fun i => bins.getD i 0 ≤ c with hP
    have : DecidablePred P := fun i => Rat.instDecidableLe _ _
    set k := Nat.findGreatest P (bins.length - 1) with hk
    have hPk : P k := Nat.findGreatest_spec (Nat.zero_le _) hc0
    have hkle : k ≤ bins.length - 1 := Nat.findGreatest_le _
    have hklen : k < bins.length := by omega
    refine ⟨k, ⟨hklen, hPk, ?_⟩, ?_⟩
    · unfold bucketHigh
      split
      · rename_i hk1
        have hnot : ¬ P (k + 1) :=
          Nat.findGreatest_is_greatest (Nat.lt_succ_self k) (by omega)
        exact lt_of_not_le hnot
      · exact hc100
    · rintro j ⟨hjlen, hj⟩
      by_contra hne'
      rcases lt_trichotomy j k with h | h | h
      · exact inBucket_disjoint hsort h hklen hj ⟨hPk, by
          unfold bucketHigh
          split
          · rename_i hk1
            have hnot : ¬ P (k + 1) :=
              Nat.findGreatest_is_greatest (Nat.lt_succ_self k) (by omega)
            exact lt_of_not_le hnot
          · exact hc100⟩
      · exact hne' h
      · exact absurd hj.1 (by
          have hnot : ¬ P j := Nat.findGreatest_is_greatest h (by omega)
          exact hnot)

/-- Witness for C6 at the configured cut points `[65, 70, 75, 80]`. -/
theorem confidence_buckets_witness :
    (∀ j, j + 1 < ([65, 70, 75, 80] : List ℚ).length →
      inBucket [65, 70, 75, 80] (j + 1) (([65, 70, 75, 80] : List ℚ).getD (j + 1) 0)
        ∧ ¬ inBucket [65, 70, 75, 80] j (([65, 70, 75, 80] : List ℚ).getD (j + 1) 0))
    ∧ (∀ c : ℚ, ([65, 70, 75, 80] : List ℚ).getD 0 0 ≤ c → c < 100 →
        ∃! i, i < ([65, 70, 75, 80] : List ℚ).length ∧ inBucket [65, 70, 75, 80] i c) :=
  confidence_buckets [65, 70, 75, 80]
    (by simp [List.sorted_cons]; norm_num)
    (by intro b hb; simp at hb; rcases hb with h | h | h | h <;> norm_num [h])
    (by simp)

/-! ## Universe aggregation (`PredictionValidator.aggregate_results`)

One per-ticker report, restricted to the fields the aggregation reads, for
one fixed horizon label.  `accuracy` is always present on a report with
predictions; the direction-split accuracies are present only when that
direction occurred (`Option`). -/

structure TickerResult where
  predictions : ℕ
  avgConfidence : ℚ
  avgMfe : ℚ
  avgMae : ℚ
  accuracy : ℚ
  bullAccuracy : Option ℚ
  bearAccuracy : Option ℚ
deriving DecidableEq, Repr

structure Aggregate where
  tickersTested : ℕ
  totalPredictions : ℕ
  avgConfidence : ℚ
  avgMfe : ℚ
  avgMae : ℚ
  accuracy : ℚ
  bullAccuracy : Option ℚ
  bearAccuracy : Option ℚ
deriving DecidableEq, Repr

/-- `aggregate_results`: drop tickers without predictions, sum counts,
plain means for confidence and excursions, prediction-count weighting for
the overall accuracy, plain `np.mean` for the direction-split accuracies
(computed over the tickers that report them). -/
def aggregateResults (results : List TickerResult) : Option Aggregate :=
  let valid := results.filter (fun r => decide (0 < r.predictions))
  let totalPreds : ℕ := (valid.map (·.predictions)).sum
  if valid.isEmpty then none
  else some {
    tickersTested := valid.length
    totalPredictions := totalPreds
    avgConfidence := pyRound 1 (meanQ (valid.map (·.avgConfidence)))
    avgMfe := pyRound 4 (meanQ (valid.map (·.avgMfe)))
    avgMae := pyRound 4 (meanQ (valid.map (·.avgMae)))
    accuracy := pyRound 1 ((valid.map (fun r => r.accuracy * (r.predictions : ℚ))).sum
      / (totalPreds : ℚ))
    bullAccuracy :=
      if (valid.filterMap (·.bullAccuracy)).isEmpty then none
      else some (pyRound 1 (meanQ (valid.filterMap (·.bullAccuracy))))
    bearAccuracy :=
      if (valid.filterMap (·.bearAccuracy)).isEmpty then none
      else some (pyRound 1 (meanQ (valid.filterMap (·.bearAccuracy)))) }

theorem roundHalfEven_intCast (n : ℤ) : roundHalfEven (n : ℚ) = n := by
  unfold roundHalfEven
  rw [Int.floor_intCast]
  norm_num

theorem pyRound_intCast (nd : ℕ) (x : ℚ) (n : ℤ) (h : x * 10 ^ nd = (n : ℚ)) :
    pyRound nd x = (n : ℚ) / 10 ^ nd := by
  rw [pyRound, h, roundHalfEven_intCast]

theorem pyRound1_50 : pyRound 1 (50 : ℚ) = 50 := by
  rw [pyRound_intCast 1 50 500 (by norm_num)]
  norm_num

theorem pyRound1_75 : pyRound 1 (75 : ℚ) = 75 := by
  rw [pyRound_intCast 1 75 750 (by norm_num)]
  norm_num

/-- Two per-ticker reports: 1 prediction with 0% bull accuracy, and 3
predictions with 100% bull accuracy. -/
def resA : TickerResult := ⟨1, 50, 0, 0, 0, some 0, none⟩

def resB : TickerResult := ⟨3, 50, 0, 0, 0, some 100, none⟩

def resZero : TickerResult := ⟨0, 0, 0, 0, 0, none, none⟩

/-- C7 counterexample: the aggregate bull accuracy over `resA` (1
prediction, 0%) and `resB` (3 predictions, 100%) is the plain mean 50, not
the prediction-count-weighted combination 75. -/
theorem aggregate_bull_accuracy_counterexample :
    (aggregateResults [resA, resB]).map (fun a => a.bullAccuracy) = some (some 50)
    ∧ pyRound 1 ((resA.bullAccuracy.getD 0 * (resA.predictions : ℚ)
        + resB.bullAccuracy.getD 0 * (resB.predictions : ℚ))
        / ((resA.predictions : ℚ) + (resB.predictions : ℚ))) = 75
    ∧ (some (50 : ℚ) : Option ℚ) ≠ some 75 := by
  refine ⟨?_, ?_, by norm_num⟩
  · have h : (aggregateResults [resA, resB]).map (fun a => a.bullAccuracy) =
        some (some (pyRound 1 (meanQ [(0 : ℚ), 100]))) := by
      simp [aggregateResults, resA, resB, List.filter, List.filterMap]
    rw [h]
    have : meanQ [(0 : ℚ), 100] = 50 := by
      simp [meanQ]
      norm_num
    rw [this, pyRound1_50]
  · have : (resA.bullAccuracy.getD 0 * (resA.predictions : ℚ)
        + resB.bullAccuracy.getD 0 * (resB.predictions : ℚ))
        / ((resA.predictions : ℚ) + (resB.predictions : ℚ)) = 75 := by
      simp [resA, resB]
      norm_num
    rw [this, pyRound1_75]

/-- C7 (amended). Tickers with zero qualifying predictions are excluded
entirely from the aggregate; the total prediction count is the sum over
included tickers; the overall per-horizon accuracy is prediction-count
weighted; confidence and excursion figures are plain means — but the
direction-split bull/bear accuracies are plain (unweighted) means over the
tickers that report them, not weighted combinations. -/
theorem aggregate_results_spec :
    (∀ (r0 : TickerResult) (rs : List TickerResult), r0.predictions = 0 →
      aggregateResults (r0 :: rs) = aggregateResults rs)
    ∧ (∀ (rs : List TickerResult) (a : Aggregate), aggregateResults rs = some a →
        a.totalPredictions =
          ((rs.filter (fun r => decide (0 < r.predictions))).map (·.predictions)).sum
        ∧ a.accuracy = pyRound 1
            (((rs.filter (fun r => decide (0 < r.predictions))).map
                (fun r => r.accuracy * (r.predictions : ℚ))).sum
              / ((((rs.filter (fun r => decide (0 < r.predictions))).map
                    (·.predictions)).sum : ℕ) : ℚ))
        ∧ a.bullAccuracy =
            (if ((rs.filter (fun r => decide (0 < r.predictions))).filterMap
                  (·.bullAccuracy)).isEmpty then none
             else some (pyRound 1 (meanQ ((rs.filter
                (fun r => decide (0 < r.predictions))).filterMap (·.bullAccuracy)))))
        ∧ a.bearAccuracy =
            (if ((rs.filter (fun r => decide (0 < r.predictions))).filterMap
                  (·.bearAccuracy)).isEmpty then none
             else some (pyRound 1 (meanQ ((rs.filter
                (fun r => decide (0 < r.predictions))).filterMap (·.bearAccuracy)))))
        ∧ a.avgConfidence = pyRound 1 (meanQ ((rs.filter
            (fun r => decide (0 < r.predictions))).map (·.avgConfidence)))
        ∧ a.avgMfe = pyRound 4 (meanQ ((rs.filter
            (fun r => decide (0 < r.predictions))).map (·.avgMfe)))
        ∧ a.avgMae = pyRound 4 (meanQ ((rs.filter
            (fun r => decide (0 < r.predictions))).map (·.avgMae)))) := by
  constructor
  · intro r0 rs h0
    have hf : (r0 :: rs).filter (fun r => decide (0 < r.predictions))
        = rs.filter (fun r => decide (0 < r.predictions)) := by
      rw [List.filter_cons]
      simp [h0]
    unfold aggregateResults
    rw [hf]
  · intro rs a ha
    unfold aggregateResults at ha
    set valid := rs.filter (fun r => decide (0 < r.predictions)) with hv
    by_cases he : valid.isEmpty
    · rw [if_pos he] at ha
      exact Option.noConfusion ha
    · rw [if_neg he] at ha
      have := Option.some.inj ha
      subst this
      exact ⟨rfl, rfl, rfl, rfl, rfl, rfl, rfl⟩

/-- Witness for C7's amended statement: prepending a zero-prediction ticker
leaves the aggregate unchanged. -/
theorem aggregate_results_spec_witness :
    aggregateResults (resZero :: [resB]) = aggregateResults [resB] :=
  aggregate_results_spec.1 resZero [resB] rfl

/-! ## Bollinger bands over the reals (`bollinger_bands`)

The band computation takes a square root (`rolling(period).std()`), so it is
modelled over `ℝ`.  `ExtR` is the value domain of a float expression there:
a finite real, NaN, or one of the two infinities — needed because the
`bandwidth` division is unguarded and can genuinely produce an infinity. -/

inductive ExtR where
  | nan
  | pinf
  | ninf
  | num (x : ℝ)

/-- Float division `a / b`: finite quotient when `b ≠ 0`, otherwise NaN on
`0/0` and a signed infinity on `±x/0`. -/
noncomputable def extDiv (a b : ℝ) : ExtR :=
  if b = 0 then
    (if a = 0 then ExtR.nan else if 0 < a then ExtR.pinf else ExtR.ninf)
  else ExtR.num (a / b)

/-- Rolling window over a real series (as `rollingWindow`). -/
def rollingWindowR (p : ℕ) (l : List ℝ) (i : ℕ) : List ℝ :=
  (l.take (i + 1)).drop (i + 1 - p)

/-- `close.rolling(period).mean()` over `ℝ` (the `mid` band). -/
noncomputable def smaR (l : List ℝ) (p : ℕ) : List (Option ℝ) :=
  (List.range l.length).map (fun i =>
    if i + 1 < p then none else some ((rollingWindowR p l i).sum / p))

/-- Sample variance of a window (pandas `std` uses `ddof=1`). -/
noncomputable def sampleVar (w : List ℝ) : ℝ :=
  (w.map (fun x => (x - w.sum / w.length) ^ 2)).sum / ((w.length : ℝ) - 1)

/-- `close.rolling(period).std()`: NaN during warm-up and for window size 1
(where the `ddof=1` denominator vanishes). -/
noncomputable def rollingStdR (l : List ℝ) (p : ℕ) : List (Option ℝ) :=
  (List.range l.length).map (fun i =>
    if i + 1 < p ∨ p ≤ 1 then none
    else some (Real.sqrt (sampleVar (rollingWindowR p l i))))

/-- `upper = mid + std_dev * std`. -/
noncomputable def bbUpper (c : List ℝ) (p : ℕ) (k : ℝ) (i : ℕ) : Option ℝ :=
  match (smaR c p).getD i none, (rollingStdR c p).getD i none with
  | some m, some s => some (m + k * s)
  | _, _ => none

/-- `lower = mid - std_dev * std`. -/
noncomputable def bbLower (c : List ℝ) (p : ℕ) (k : ℝ) (i : ℕ) : Option ℝ :=
  match (smaR c p).getD i none, (rollingStdR c p).getD i none with
  | some m, some s => some (m - k * s)
  | _, _ => none

/-- `bandwidth = (upper - lower) / mid` — a plain, unguarded division. -/
noncomputable def bbBandwidth (c : List ℝ) (p : ℕ) (k : ℝ) (i : ℕ) : ExtR :=
  match bbUpper c p k i, bbLower c p k i, (smaR c p).getD i none with
  | some u, some lo, some m => extDiv (u - lo) m
  | _, _, _ => ExtR.nan

/-- `position = (close - lower) / (upper - lower)` — also unguarded. -/
noncomputable def bbPosition (c : List ℝ) (p : ℕ) (k : ℝ) (i : ℕ) : ExtR :=
  match bbUpper c p k i, bbLower c p k i with
  | some u, some lo => extDiv (c.getD i 0 - lo) (u - lo)
  | _, _ => ExtR.nan

/-- pandas `clip(lo, hi)` on a float value: NaN passes through, the
infinities clamp to the bounds. -/
noncomputable def extClip (lo hi : ℝ) (e : ExtR) : ExtR :=
  match e with
  | ExtR.nan => ExtR.nan
  | ExtR.pinf => ExtR.num hi
  | ExtR.ninf => ExtR.num lo
  | ExtR.num x => ExtR.num (max lo (min hi x))

/-- `bb_pos * 2 - 1` on a float value. -/
noncomputable def extScale2Sub1 (e : ExtR) : ExtR :=
  match e with
  | ExtR.nan => ExtR.nan
  | ExtR.pinf => ExtR.pinf
  | ExtR.ninf => ExtR.ninf
  | ExtR.num x => ExtR.num (x * 2 - 1)

/-- `signals['bollinger_position'] = (bb_pos * 2 - 1).clip(-1, 1)` in
`compute_all_signals`, with the default `bollinger_bands(c)` parameters
`period=20`, `std_dev=2`. -/
noncomputable def bollingerPositionSignal (c : List ℝ) (i : ℕ) : ExtR :=
  extClip (-1) 1 (extScale2Sub1 (bbPosition c 20 2 i))

/-- 19 flat bars followed by one spike: the last close sits far above the
upper band. -/
noncomputable def cex9 : List ℝ :=
  [0, 0, 0, 0, 0, 0, 0, 0, 0, 0, 0, 0, 0, 0, 0, 0, 0, 0, 0, 6]

theorem smaR_getD (l : List ℝ) (p : ℕ) (i : ℕ) (hi : i < l.length) :
    (smaR l p).getD i none =
      (if i + 1 < p then none else some ((rollingWindowR p l i).sum / p)) := by
  unfold smaR
  rw [List.getD_eq_getElem?_getD, List.getElem?_map, List.getElem?_range hi]
  rfl

theorem rollingStdR_getD (l : List ℝ) (p : ℕ) (i : ℕ) (hi : i < l.length) :
    (rollingStdR l p).getD i none =
      (if i + 1 < p ∨ p ≤ 1 then none
       else some (Real.sqrt (sampleVar (rollingWindowR p l i)))) := by
  unfold rollingStdR
  rw [List.getD_eq_getElem?_getD, List.getElem?_map, List.getElem?_range hi]
  rfl

theorem cex9_window : rollingWindowR 20 cex9 19 = cex9 := by
  simp [rollingWindowR, cex9]

theorem cex9_sum : cex9.sum = 6 := by
  norm_num [cex9]

theorem cex9_length : cex9.length = 20 := by
  norm_num [cex9]

theorem cex9_mean : (smaR cex9 20).getD 19 none = some (3/10) := by
  rw [smaR_getD cex9 20 19 (by rw [cex9_length]; norm_num)]
  rw [if_neg (by norm_num)]
  rw [cex9_window, cex9_sum]
  norm_num

theorem cex9_var : sampleVar cex9 = 9/5 := by
  unfold sampleVar
  rw [cex9_sum, cex9_length]
  norm_num [cex9]

theorem cex9_std : (rollingStdR cex9 20).getD 19 none = some (Real.sqrt (9/5)) := by
  rw [rollingStdR_getD cex9 20 19 (by rw [cex9_length]; norm_num)]
  rw [if_neg (by norm_num)]
  rw [cex9_window, cex9_var]

/-- C9 counterexample: on `cex9` with the default parameters, the position
returned by `bollinger_bands` at the last bar is a finite value strictly
greater than 1 — the indicator does not clip it to `[0, 1]`. -/
theorem bb_position_unclipped_counterexample :
    ∃ x : ℝ, bbPosition cex9 20 2 19 = ExtR.num x ∧ 1 < x := by
  have hspos : 0 < Real.sqrt (9/5) := Real.sqrt_pos.mpr (by norm_num)
  have hupper : bbUpper cex9 20 2 19 = some (3/10 + 2 * Real.sqrt (9/5)) := by
    unfold bbUpper
    rw [cex9_mean, cex9_std]
  have hlower : bbLower cex9 20 2 19 = some (3/10 - 2 * Real.sqrt (9/5)) := by
    unfold bbLower
    rw [cex9_mean, cex9_std]
  have hclose : cex9.getD 19 0 = 6 := by norm_num [cex9]
  have hden : (3/10 + 2 * Real.sqrt (9/5)) - (3/10 - 2 * Real.sqrt (9/5))
      = 4 * Real.sqrt (9/5) := by ring
  unfold bbPosition
  rw [hupper, hlower]
  show ∃ x : ℝ, extDiv _ _ = ExtR.num x ∧ 1 < x
  rw [hclose, hden]
  unfold extDiv
  rw [if_neg (by positivity)]
  refine ⟨_, rfl, ?_⟩
  rw [lt_div_iff (by positivity)]
  have hlt : Real.sqrt (9/5) < 57/20 := by
    rw [Real.sqrt_lt' (by norm_num)]
    norm_num
  nlinarith [hspos, hlt]

/-- C9 (amended). The raw `bollinger_bands` position is unclipped (see the
counterexample); the clipping happens downstream in the signal engine:
every `bollinger_position` signal value is either NaN or a finite value in
`[-1, 1]` — including bars whose close lies outside the bands, where the
raw position leaves `[0, 1]`. -/
theorem bollinger_position_signal_bounded (c : List ℝ) (i : ℕ) :
    bollingerPositionSignal c i = ExtR.nan
    ∨ ∃ x : ℝ, bollingerPositionSignal c i = ExtR.num x ∧ -1 ≤ x ∧ x ≤ 1 := by
  unfold bollingerPositionSignal
  cases e : bbPosition c 20 2 i with
  | nan => left; rfl
  | pinf => right; exact ⟨1, rfl, by norm_num, le_refl 1⟩
  | ninf => right; exact ⟨-1, rfl, le_refl (-1), by norm_num⟩
  | num x =>
    right
    refine ⟨max (-1) (min 1 (x * 2 - 1)), rfl, le_max_left _ _, ?_⟩
    exact max_le (by norm_num) (min_le_left _ _)

/-! ## ATR / ADX / VWAP over ℚ (`atr`, `adx`, `vwap` in `indicators.py`)

These involve only rational arithmetic.  `adx`'s final smoothing
`adx_val = ema(dx, period)` contains no division and is not needed by any
claim; the three guarded ratios (`plus_di`, `minus_di`, `dx`) are. -/

/-- True range `max(high-low, |high-prev_close|, |low-prev_close|)`;
at the first bar the shifted terms are NaN and the row-wise `max`
(skipna) reduces to `high - low`. -/
def trList (high low close : List ℚ) : List ℚ :=
  (List.range high.length).map (fun i =>
    if i = 0 then high.getD i 0 - low.getD i 0
    else max (high.getD i 0 - low.getD i 0)
      (max |high.getD i 0 - close.getD (i - 1) 0| |low.getD i 0 - close.getD (i - 1) 0|))

/-- `atr = tr.rolling(period).mean()`. -/
def atr (high low close : List ℚ) (p : ℕ) : List (Option ℚ) :=
  rollingMean p (trList high low close)

/-- `plus_dm = high.diff()` masked by `(plus_dm > minus_dm) & (plus_dm > 0)`
(the first diff is NaN, failing both comparisons, hence `0.0`). -/
def plusDM (high low : List ℚ) : List ℚ :=
  (List.range high.length).map (fun i =>
    if i = 0 then 0
    else
      let pd := high.getD i 0 - high.getD (i - 1) 0
      let md := low.getD (i - 1) 0 - low.getD i 0
      if md < pd ∧ 0 < pd then pd else 0)

/-- `minus_dm = -low.diff()` masked by `(minus_dm > plus_dm) & (minus_dm > 0)`
— against the already-masked `plus_dm` (the code reassigns `plus_dm`
first). -/
def minusDM (high low : List ℚ) : List ℚ :=
  (List.range high.length).map (fun i =>
    if i = 0 then 0
    else
      let pd := high.getD i 0 - high.getD (i - 1) 0
      let md := low.getD (i - 1) 0 - low.getD i 0
      let pdM := if md < pd ∧ 0 < pd then pd else 0
      if pdM < md ∧ 0 < md then md else 0)

/-- `plus_di = 100 * ema(plus_dm, period) / atr_val.replace(0, np.nan)`. -/
def plusDI (high low close : List ℚ) (p : ℕ) : List (Option ℚ) :=
  (List.range high.length).map (fun i =>
    match (atr high low close p).getD i none with
    | some a => if a = 0 then none
                else some (100 * (emaF (plusDM high low) p).getD i 0 / a)
    | none => none)

/-- `minus_di = 100 * ema(minus_dm, period) / atr_val.replace(0, np.nan)`. -/
def minusDI (high low close : List ℚ) (p : ℕ) : List (Option ℚ) :=
  (List.range high.length).map (fun i =>
    match (atr high low close p).getD i none with
    | some a => if a = 0 then none
                else some (100 * (emaF (minusDM high low) p).getD i 0 / a)
    | none => none)

/-- `dx = 100 * (plus_di - minus_di).abs() / (plus_di + minus_di).replace(0, np.nan)`. -/
def dxSeries (high low close : List ℚ) (p : ℕ) : List (Option ℚ) :=
  (List.range high.length).map (fun i =>
    match (plusDI high low close p).getD i none, (minusDI high low close p).getD i none with
    | some pdi, some mdi =>
        if pdi + mdi = 0 then none else some (100 * |pdi - mdi| / (pdi + mdi))
    | _, _ => none)

/-- `vwap = (typical * volume).cumsum() / volume.cumsum().replace(0, np.nan)`
with `typical = (high + low + close) / 3`. -/
def vwap (high low close volume : List ℚ) : List (Option ℚ) :=
  (List.range high.length).map (fun i =>
    let cv := ((List.range (i + 1)).map (fun j => volume.getD j 0)).sum
    if cv = 0 then none
    else some ((((List.range (i + 1)).map (fun j =>
      (high.getD j 0 + low.getD j 0 + close.getD j 0) / 3 * volume.getD j 0)).sum) / cv))

theorem plusDI_getD (high low close : List ℚ) (p : ℕ) (i : ℕ)
    (hi : i < high.length) :
    (plusDI high low close p).getD i none =
      (match (atr high low close p).getD i none with
       | some a => if a = 0 then none
                   else some (100 * (emaF (plusDM high low) p).getD i 0 / a)
       | none => none) := by
  unfold plusDI
  rw [List.getD_eq_getElem?_getD, List.getElem?_map, List.getElem?_range hi]
  rfl

theorem minusDI_getD (high low close : List ℚ) (p : ℕ) (i : ℕ)
    (hi : i < high.length) :
    (minusDI high low close p).getD i none =
      (match (atr high low close p).getD i none with
       | some a => if a = 0 then none
                   else some (100 * (emaF (minusDM high low) p).getD i 0 / a)
       | none => none) := by
  unfold minusDI
  rw [List.getD_eq_getElem?_getD, List.getElem?_map, List.getElem?_range hi]
  rfl

theorem dxSeries_getD (high low close : List ℚ) (p : ℕ) (i : ℕ)
    (hi : i < high.length) :
    (dxSeries high low close p).getD i none =
      (match (plusDI high low close p).getD i none,
             (minusDI high low close p).getD i none with
       | some pdi, some mdi =>
           if pdi + mdi = 0 then none else some (100 * |pdi - mdi| / (pdi + mdi))
       | _, _ => none) := by
  unfold dxSeries
  rw [List.getD_eq_getElem?_getD, List.getElem?_map, List.getElem?_range hi]
  rfl

theorem vwap_getD (high low close volume : List ℚ) (i : ℕ)
    (hi : i < high.length) :
    (vwap high low close volume).getD i none =
      (if ((List.range (i + 1)).map (fun j => volume.getD j 0)).sum = 0 then none
       else some ((((List.range (i + 1)).map (fun j =>
         (high.getD j 0 + low.getD j 0 + close.getD j 0) / 3 * volume.getD j 0)).sum)
         / ((List.range (i + 1)).map (fun j => volume.getD j 0)).sum)) := by
  unfold vwap
  rw [List.getD_eq_getElem?_getD, List.getElem?_map, List.getElem?_range hi]
  rfl

/-! ## C8: guarded and unguarded divisions -/

theorem list_sq_sum_zero {w : List ℝ} {m : ℝ}
    (h : (w.map (fun x => (x - m) ^ 2)).sum = 0) : ∀ x ∈ w, x = m := by
  induction w with
  | nil => intro x hx; cases hx
  | cons y ys ih =>
    rw [List.map_cons, List.sum_cons] at h
    have h2 : 0 ≤ (ys.map (fun x => (x - m) ^ 2)).sum := by
      apply List.sum_nonneg
      intro a ha
      rcases List.mem_map.mp ha with ⟨b, _, rfl⟩
      exact sq_nonneg _
    have h1 : 0 ≤ (y - m) ^ 2 := sq_nonneg _
    have hy : (y - m) ^ 2 = 0 := by linarith
    have hys : (ys.map (fun x => (x - m) ^ 2)).sum = 0 := by linarith
    intro x hx
    rcases List.mem_cons.mp hx with rfl | hx
    · have hzero := (pow_eq_zero_iff (by norm_num : 2 ≠ 0)).mp hy
      linarith [sub_eq_zero.mp hzero]
    · exact ih hys x hx

theorem plusDI_atr_guard (high low close : List ℚ) (p i : ℕ)
    (hi : i < high.length)
    (h : (atr high low close p).getD i none = none
      ∨ (atr high low close p).getD i none = some 0) :
    (plusDI high low close p).getD i none = none
      ∧ (minusDI high low close p).getD i none = none := by
  rw [plusDI_getD high low close p i hi, minusDI_getD high low close p i hi]
  rcases h with h | h <;> rw [h]
  · exact ⟨rfl, rfl⟩
  · constructor <;> simp

theorem dx_guard (high low close : List ℚ) (p i : ℕ) (hi : i < high.length)
    (h : (plusDI high low close p).getD i none = none
      ∨ (minusDI high low close p).getD i none = none
      ∨ ∃ pdi mdi, (plusDI high low close p).getD i none = some pdi
          ∧ (minusDI high low close p).getD i none = some mdi ∧ pdi + mdi = 0) :
    (dxSeries high low close p).getD i none = none := by
  rw [dxSeries_getD high low close p i hi]
  rcases h with h | h | ⟨pdi, mdi, h1, h2, h0⟩
  · rw [h]
  · rw [h]
    cases (plusDI high low close p).getD i none <;> rfl
  · rw [h1, h2]
    simp [h0]

theorem vwap_zero_volume (high low close volume : List ℚ) (i : ℕ)
    (hi : i < high.length)
    (hcv : ((List.range (i + 1)).map (fun j => volume.getD j 0)).sum = 0) :
    (vwap high low close volume).getD i none = none := by
  rw [vwap_getD high low close volume i hi, if_pos hcv]

theorem bbPosition_zero_std_nan (c : List ℝ) (p : ℕ) (k : ℝ) (i : ℕ)
    (h : (rollingStdR c p).getD i none = some 0) :
    bbPosition c p k i = ExtR.nan := by
  have hi : i < c.length := by
    by_contra hge
    push_neg at hge
    rw [List.getD_eq_default] at h
    · exact Option.noConfusion h
    · simpa [rollingStdR] using hge
  rw [rollingStdR_getD c p i hi] at h
  by_cases hcond : i + 1 < p ∨ p ≤ 1
  · rw [if_pos hcond] at h
    exact Option.noConfusion h
  · rw [if_neg hcond] at h
    push_neg at hcond
    obtain ⟨hip, hp1⟩ := hcond
    have hsqrt : Real.sqrt (sampleVar (rollingWindowR p c i)) = 0 := Option.some.inj h
    have hvar_le : sampleVar (rollingWindowR p c i) ≤ 0 := Real.sqrt_eq_zero'.mp hsqrt
    set w := rollingWindowR p c i with hw
    have hwlen : w.length = p := by
      rw [hw]
      unfold rollingWindowR
      rw [List.length_drop, List.length_take, Nat.min_eq_left (by omega)]
      omega
    have hden_pos : (0 : ℝ) < (w.length : ℝ) - 1 := by
      rw [hwlen]
      have h2 : (2 : ℝ) ≤ (p : ℝ) := by exact_mod_cast (by omega : 2 ≤ p)
      linarith
    have hS_nonneg : 0 ≤ (w.map (fun x => (x - w.sum / w.length) ^ 2)).sum := by
      apply List.sum_nonneg
      intro a ha
      rcases List.mem_map.mp ha with ⟨b, _, rfl⟩
      exact sq_nonneg _
    have hS_zero : (w.map (fun x => (x - w.sum / w.length) ^ 2)).sum = 0 := by
      unfold sampleVar at hvar_le
      by_contra hne
      have hpos : 0 < (w.map (fun x => (x - w.sum / w.length) ^ 2)).sum :=
        lt_of_le_of_ne hS_nonneg (Ne.symm hne)
      have := div_pos hpos hden_pos
      linarith
    have hconst : ∀ x ∈ w, x = w.sum / w.length := list_sq_sum_zero hS_zero
    have hci : c.get? i = some (c.getD i 0) := by
      rw [List.get?_eq_getElem?, List.getElem?_eq_getElem hi,
        List.getD_eq_getElem?_getD, List.getElem?_eq_getElem hi]
      rfl
    have hlast : w.get? (p - 1) = c.get? i := by
      rw [hw]
      unfold rollingWindowR
      rw [List.get?_drop, show i + 1 - p + (p - 1) = i from by omega,
        List.get?_take (by omega : i < i + 1)]
    have hclose_mem : c.getD i 0 ∈ w := List.get?_mem (by rw [hlast, hci])
    have hcm : c.getD i 0 = w.sum / (p : ℝ) := by
      have := hconst _ hclose_mem
      rwa [hwlen] at this
    have hmean : (smaR c p).getD i none = some (w.sum / (p : ℝ)) := by
      rw [smaR_getD c p i hi, if_neg (by omega)]
    have hstd0 : (rollingStdR c p).getD i none = some 0 := by
      rw [rollingStdR_getD c p i hi, if_neg (by push_neg; omega), hsqrt]
    unfold bbPosition bbUpper bbLower
    rw [hmean, hstd0]
    show extDiv (c.getD i 0 - (w.sum / (p : ℝ) - k * 0))
      ((w.sum / (p : ℝ) + k * 0) - (w.sum / (p : ℝ) - k * 0)) = ExtR.nan
    rw [show c.getD i 0 - (w.sum / (p : ℝ) - k * 0) = 0 from by rw [hcm]; ring,
      show (w.sum / (p : ℝ) + k * 0) - (w.sum / (p : ℝ) - k * 0) = 0 from by ring]
    unfold extDiv
    rw [if_pos rfl, if_pos rfl]

/-- Two alternating bars: rolling mean 0 with nonzero deviation. -/
noncomputable def cex8 : List ℝ := [1, -1]

theorem cex8_mean : (smaR cex8 2).getD 1 none = some 0 := by
  rw [smaR_getD cex8 2 1 (by norm_num [cex8])]
  rw [if_neg (by norm_num)]
  have hwin : rollingWindowR 2 cex8 1 = cex8 := by simp [rollingWindowR, cex8]
  rw [hwin]
  norm_num [cex8]

theorem cex8_std : (rollingStdR cex8 2).getD 1 none = some (Real.sqrt 2) := by
  rw [rollingStdR_getD cex8 2 1 (by norm_num [cex8])]
  rw [if_neg (by norm_num)]
  have hwin : rollingWindowR 2 cex8 1 = cex8 := by simp [rollingWindowR, cex8]
  rw [hwin]
  have hvar : sampleVar cex8 = 2 := by
    unfold sampleVar
    norm_num [cex8]
  rw [hvar]

/-- C8 counterexample: the Bollinger `bandwidth = (upper - lower) / mid`
division is unguarded — on the series `[1, -1]` with `period = 2` the
rolling mean is 0 while the bands differ, and the ratio is `+inf`, not
NaN. -/
theorem bb_bandwidth_infinity_counterexample :
    bbBandwidth cex8 2 2 1 = ExtR.pinf := by
  have hspos : 0 < Real.sqrt 2 := Real.sqrt_pos.mpr (by norm_num)
  have hupper : bbUpper cex8 2 2 1 = some (0 + 2 * Real.sqrt 2) := by
    unfold bbUpper
    rw [cex8_mean, cex8_std]
  have hlower : bbLower cex8 2 2 1 = some (0 - 2 * Real.sqrt 2) := by
    unfold bbLower
    rw [cex8_mean, cex8_std]
  unfold bbBandwidth
  rw [hupper, hlower, cex8_mean]
  show extDiv ((0 + 2 * Real.sqrt 2) - (0 - 2 * Real.sqrt 2)) 0 = ExtR.pinf
  rw [show (0 + 2 * Real.sqrt 2) - (0 - 2 * Real.sqrt 2) = 4 * Real.sqrt 2 from by
    ring]
  unfold extDiv
  rw [if_pos rfl, if_neg (by positivity), if_pos (by positivity)]

/-- C8 (amended). The guarded ratios resolve to NaN on a zero or NaN
denominator: the RSI gain/loss ratio, the ADX `plus_di`/`minus_di`/`dx`
ratios, the VWAP cumulative-volume ratio — and the Bollinger position's
zero-denominator case (zero rolling std) also yields NaN, because its
numerator vanishes with it.  The Bollinger `bandwidth` ratio, however, is
not guarded and can produce an infinity (see the counterexample). -/
theorem division_guards :
    (∀ (c : List ℚ) (p i : ℕ), (lossSeries c p).getD i none = some 0 →
      (rsi c p).getD i none = none)
    ∧ (∀ (high low close : List ℚ) (p i : ℕ), i < high.length →
        ((atr high low close p).getD i none = none
          ∨ (atr high low close p).getD i none = some 0) →
        (plusDI high low close p).getD i none = none
          ∧ (minusDI high low close p).getD i none = none)
    ∧ (∀ (high low close : List ℚ) (p i : ℕ), i < high.length →
        ((plusDI high low close p).getD i none = none
          ∨ (minusDI high low close p).getD i none = none
          ∨ ∃ pdi mdi, (plusDI high low close p).getD i none = some pdi
              ∧ (minusDI high low close p).getD i none = some mdi ∧ pdi + mdi = 0) →
        (dxSeries high low close p).getD i none = none)
    ∧ (∀ (high low close volume : List ℚ) (i : ℕ), i < high.length →
        ((List.range (i + 1)).map (fun j => volume.getD j 0)).sum = 0 →
        (vwap high low close volume).getD i none = none)
    ∧ (∀ (c : List ℝ) (p : ℕ) (k : ℝ) (i : ℕ),
        (rollingStdR c p).getD i none = some 0 →
        bbPosition c p k i = ExtR.nan) :=
  ⟨rsi_loss_zero_aux, plusDI_atr_guard, dx_guard, vwap_zero_volume,
    bbPosition_zero_std_nan⟩

theorem lossSeries_234 : (lossSeries [2, 3, 4] 2).getD 1 none = some 0 := by
  have hraw : lossRaw [2, 3, 4] = [0, 0, 0] := by
    simp only [lossRaw, List.length_cons, List.length_nil]
    simp [List.range_succ, List.getD]
    norm_num
  rw [lossSeries, hraw]
  rw [rollingMean_getD 2 [0, 0, 0] 1 (by norm_num)]
  norm_num [rollingWindow]

theorem atr_flat : (atr [5] [5] [5] 1).getD 0 none = some 0 := by
  have htr : trList [5] [5] [5] = [0] := by
    simp only [trList, List.length_cons, List.length_nil]
    simp [List.range_succ, List.getD]
  rw [atr, htr, rollingMean_getD 1 [0] 0 (by norm_num)]
  norm_num [rollingWindow]

theorem std_flat : (rollingStdR [1, 1] 2).getD 1 none = some 0 := by
  rw [rollingStdR_getD [1, 1] 2 1 (by norm_num)]
  rw [if_neg (by norm_num)]
  have hwin : rollingWindowR 2 [(1 : ℝ), 1] 1 = [1, 1] := by
    simp [rollingWindowR]
  rw [hwin]
  have hvar : sampleVar [(1 : ℝ), 1] = 0 := by
    unfold sampleVar
    norm_num
  rw [hvar, Real.sqrt_zero]

/-- Witness for C8's amended statement: each guard exercised at a concrete
input with a zero or NaN denominator. -/
theorem division_guards_witness :
    (rsi [2, 3, 4] 2).getD 1 none = none
    ∧ ((plusDI [5] [5] [5] 1).getD 0 none = none
        ∧ (minusDI [5] [5] [5] 1).getD 0 none = none)
    ∧ (dxSeries [5] [5] [5] 1).getD 0 none = none
    ∧ (vwap [1] [1] [1] [0]).getD 0 none = none
    ∧ bbPosition [1, 1] 2 2 1 = ExtR.nan :=
  ⟨division_guards.1 [2, 3, 4] 2 1 lossSeries_234,
   division_guards.2.1 [5] [5] [5] 1 0 (by norm_num) (Or.inr atr_flat),
   division_guards.2.2.1 [5] [5] [5] 1 0 (by norm_num)
     (Or.inl (division_guards.2.1 [5] [5] [5] 1 0 (by norm_num) (Or.inr atr_flat)).1),
   division_guards.2.2.2.1 [1] [1] [1] [0] 0 (by norm_num)
     (by simp [List.range_succ, List.getD]),
   division_guards.2.2.2.2 [1, 1] 2 2 1 std_flat⟩

end CommandCentre
